import Mathlib

set_option maxRecDepth 8000

/-!
Verification of the question-and-answer secret vault (Shamir-style secret
sharing over the prime field with modulus `2^128 - 159`).

The development shallowly embeds `src/main.rs`:
* `FieldElement` is `ZMod fieldP` (the `ff`-derived prime field);
* `Polynomial.new / evaluate / share / reconstruct` and
  `Questionnair.new / answer` are translated loop by loop;
* SHA-256 (`tag_from_answer`, `FieldElement::hash`) and the thread RNG
  (`FieldElement::random`) are external collaborators of the core, so they
  enter as explicit parameters (`tagF`, `keyF`, `rnd`);
* Rust panics (index out of bounds, `u64`/`usize` subtraction underflow,
  `Option::unwrap` on `None`) are modelled as `Option.none` results.
-/

namespace SecretVault

/-- The modulus of the field used by the program: the largest 128-bit prime,
`2^128 - 159`, taken from the `#[PrimeFieldModulus]` attribute in the source. -/
def fieldP : ℕ := 340282366920938463463374607431768211297

/-- Square-and-multiply modular exponentiation with explicit fuel, used to
check the Lucas primality certificate for `fieldP` inside the kernel. -/
def powModAux : ℕ → ℕ → ℕ → ℕ → ℕ
  | 0, _, _, n => 1 % n
  | fuel + 1, a, e, n =>
    if e = 0 then 1 % n
    else
      let r := powModAux fuel a (e / 2) n
      if e % 2 = 0 then r * r % n else r * r % n * a % n

theorem powModAux_eq (fuel : ℕ) : ∀ a e n : ℕ, e < 2 ^ fuel →
    powModAux fuel a e n = a ^ e % n := by
  induction fuel with
  | zero =>
    intro a e n he
    interval_cases e
    simp [powModAux]
  | succ fuel ih =>
    intro a e n he
    by_cases he0 : e = 0
    · simp [powModAux, he0]
    · have hdiv : e / 2 < 2 ^ fuel := by
        rw [pow_succ] at he
        exact Nat.div_lt_of_lt_mul (by omega)
      have hrec := ih a (e / 2) n hdiv
      have hsplit : e = e / 2 + e / 2 + e % 2 := by omega
      have hsq : a ^ (e / 2) % n * (a ^ (e / 2) % n) % n = a ^ (e / 2 + e / 2) % n := by
        conv_rhs => rw [pow_add, Nat.mul_mod]
      by_cases hpar : e % 2 = 0
      · have hgoal : powModAux (fuel + 1) a e n = powModAux fuel a (e / 2) n *
            powModAux fuel a (e / 2) n % n := by
          simp [powModAux, he0, hpar]
        rw [hgoal, hrec, hsq, show e / 2 + e / 2 = e by omega]
      · have hgoal : powModAux (fuel + 1) a e n = powModAux fuel a (e / 2) n *
            powModAux fuel a (e / 2) n % n * a % n := by
          simp [powModAux, he0, hpar]
        rw [hgoal, hrec, hsq, Nat.mod_mul_mod, ← pow_succ,
          show e / 2 + e / 2 + 1 = e by omega]

/-- Casting a power computed by `powModAux` into `ZMod n`. -/
theorem castPow_eq (n a e fuel r : ℕ) (hfuel : e < 2 ^ fuel)
    (hr : powModAux fuel a e n = r) :
    ((a : ℕ) : ZMod n) ^ e = ((r : ℕ) : ZMod n) := by
  rw [← hr, powModAux_eq fuel a e n hfuel, ZMod.natCast_mod, Nat.cast_pow]

/-- A power computed by `powModAux` is `1` in `ZMod n`. -/
theorem castPow_eq_one (n a e fuel : ℕ) (hfuel : e < 2 ^ fuel)
    (hr : powModAux fuel a e n = 1 % n) :
    ((a : ℕ) : ZMod n) ^ e = 1 := by
  rw [castPow_eq n a e fuel (1 % n) hfuel hr, ZMod.natCast_mod, Nat.cast_one]

/-- A power computed by `powModAux` is not `1` in `ZMod n`. -/
theorem castPow_ne_one (n a e fuel r : ℕ) (hfuel : e < 2 ^ fuel)
    (hr : powModAux fuel a e n = r) (hne : ¬ (r % n = 1 % n)) :
    ((a : ℕ) : ZMod n) ^ e ≠ 1 := by
  rw [castPow_eq n a e fuel r hfuel hr]
  intro hcontra
  rw [show (1 : ZMod n) = ((1 : ℕ) : ZMod n) by rw [Nat.cast_one]] at hcontra
  exact hne ((ZMod.natCast_eq_natCast_iff r 1 n).mp hcontra)

/-- Lucas certificate for the large prime factor `62826870453001` of
`fieldP - 1`, with witness `11` and `62826870453000 = 2^3·3·5^3·73·13147·21821`. -/
theorem prime_62826870453001 : Nat.Prime 62826870453001 := by
  have hsub : (62826870453001 : ℕ) - 1 = 62826870453000 := by norm_num
  apply lucas_primality _ ((11 : ℕ) : ZMod 62826870453001)
  · rw [hsub]
    exact castPow_eq_one _ _ _ 50 (by norm_num) (by decide)
  · intro q hq hdvd
    rw [hsub] at hdvd ⊢
    rw [show (62826870453000 : ℕ) = 2 ^ 3 * (3 * (5 ^ 3 * (73 * (13147 * 21821)))) by
      norm_num] at hdvd
    rcases (Nat.Prime.dvd_mul hq).mp hdvd with h | h
    · have hq2 : q = 2 := (Nat.prime_dvd_prime_iff_eq hq (by norm_num)).mp
        (hq.dvd_of_dvd_pow h)
      rw [hq2, show (62826870453000 : ℕ) / 2 = 31413435226500 by norm_num]
      exact castPow_ne_one _ _ _ 50 62826870453000 (by norm_num) (by decide) (by decide)
    rcases (Nat.Prime.dvd_mul hq).mp h with h | h
    · have hq3 : q = 3 := (Nat.prime_dvd_prime_iff_eq hq (by norm_num)).mp h
      rw [hq3, show (62826870453000 : ℕ) / 3 = 20942290151000 by norm_num]
      exact castPow_ne_one _ _ _ 50 8412454078979 (by norm_num) (by decide) (by decide)
    rcases (Nat.Prime.dvd_mul hq).mp h with h | h
    · have hq5 : q = 5 := (Nat.prime_dvd_prime_iff_eq hq (by norm_num)).mp
        (hq.dvd_of_dvd_pow h)
      rw [hq5, show (62826870453000 : ℕ) / 5 = 12565374090600 by norm_num]
      exact castPow_ne_one _ _ _ 50 59494301213402 (by norm_num) (by decide) (by decide)
    rcases (Nat.Prime.dvd_mul hq).mp h with h | h
    · have hq73 : q = 73 := (Nat.prime_dvd_prime_iff_eq hq (by norm_num)).mp h
      rw [hq73, show (62826870453000 : ℕ) / 73 = 860642061000 by norm_num]
      exact castPow_ne_one _ _ _ 50 6036749595105 (by norm_num) (by decide) (by decide)
    rcases (Nat.Prime.dvd_mul hq).mp h with h | h
    · have hqa : q = 13147 := (Nat.prime_dvd_prime_iff_eq hq (by norm_num)).mp h
      rw [hqa, show (62826870453000 : ℕ) / 13147 = 4778799000 by norm_num]
      exact castPow_ne_one _ _ _ 50 58291970677780 (by norm_num) (by decide) (by decide)
    · have hqb : q = 21821 := (Nat.prime_dvd_prime_iff_eq hq (by norm_num)).mp h
      rw [hqb, show (62826870453000 : ℕ) / 21821 = 2879193000 by norm_num]
      exact castPow_ne_one _ _ _ 50 14201097495668 (by norm_num) (by decide) (by decide)

/-- Lucas certificate for `1283` (`1282 = 2·641`). -/
theorem prime_1283 : Nat.Prime 1283 := by
  have hsub : (1283 : ℕ) - 1 = 1282 := by norm_num
  apply lucas_primality _ ((2 : ℕ) : ZMod 1283)
  · rw [hsub]
    exact castPow_eq_one _ _ _ 11 (by norm_num) (by decide)
  · intro q hq hdvd
    rw [hsub] at hdvd ⊢
    rw [show (1282 : ℕ) = 2 * 641 by norm_num] at hdvd
    rcases (Nat.Prime.dvd_mul hq).mp hdvd with h | h
    · have hq2 : q = 2 := (Nat.prime_dvd_prime_iff_eq hq (by norm_num)).mp h
      rw [hq2, show (1282 : ℕ) / 2 = 641 by norm_num]
      exact castPow_ne_one _ _ _ 11 1282 (by norm_num) (by decide) (by decide)
    · have hq6 : q = 641 := (Nat.prime_dvd_prime_iff_eq hq (by norm_num)).mp h
      rw [hq6, show (1282 : ℕ) / 641 = 2 by norm_num]
      exact castPow_ne_one _ _ _ 11 4 (by norm_num) (by decide) (by decide)

/-- Lucas certificate for `957119` (`957118 = 2·373·1283`). -/
theorem prime_957119 : Nat.Prime 957119 := by
  have hsub : (957119 : ℕ) - 1 = 957118 := by norm_num
  apply lucas_primality _ ((7 : ℕ) : ZMod 957119)
  · rw [hsub]
    exact castPow_eq_one _ _ _ 20 (by norm_num) (by decide)
  · intro q hq hdvd
    rw [hsub] at hdvd ⊢
    rw [show (957118 : ℕ) = 2 * (373 * 1283) by norm_num] at hdvd
    rcases (Nat.Prime.dvd_mul hq).mp hdvd with h | h
    · have hq2 : q = 2 := (Nat.prime_dvd_prime_iff_eq hq (by norm_num)).mp h
      rw [hq2, show (957118 : ℕ) / 2 = 478559 by norm_num]
      exact castPow_ne_one _ _ _ 20 957118 (by norm_num) (by decide) (by decide)
    rcases (Nat.Prime.dvd_mul hq).mp h with h | h
    · have hq3 : q = 373 := (Nat.prime_dvd_prime_iff_eq hq (by norm_num)).mp h
      rw [hq3, show (957118 : ℕ) / 373 = 2566 by norm_num]
      exact castPow_ne_one _ _ _ 20 890705 (by norm_num) (by decide) (by decide)
    · have hq4 : q = 1283 := (Nat.prime_dvd_prime_iff_eq hq prime_1283).mp h
      rw [hq4, show (957118 : ℕ) / 1283 = 746 by norm_num]
      exact castPow_ne_one _ _ _ 20 106369 (by norm_num) (by decide) (by decide)

/-- Lucas certificate for `4454477` (`4454476 = 2²·13·17·5039`). -/
theorem prime_4454477 : Nat.Prime 4454477 := by
  have hsub : (4454477 : ℕ) - 1 = 4454476 := by norm_num
  apply lucas_primality _ ((2 : ℕ) : ZMod 4454477)
  · rw [hsub]
    exact castPow_eq_one _ _ _ 23 (by norm_num) (by decide)
  · intro q hq hdvd
    rw [hsub] at hdvd ⊢
    rw [show (4454476 : ℕ) = 2 ^ 2 * (13 * (17 * 5039)) by norm_num] at hdvd
    rcases (Nat.Prime.dvd_mul hq).mp hdvd with h | h
    · have hq2 : q = 2 := (Nat.prime_dvd_prime_iff_eq hq (by norm_num)).mp
        (hq.dvd_of_dvd_pow h)
      rw [hq2, show (4454476 : ℕ) / 2 = 2227238 by norm_num]
      exact castPow_ne_one _ _ _ 23 4454476 (by norm_num) (by decide) (by decide)
    rcases (Nat.Prime.dvd_mul hq).mp h with h | h
    · have hq3 : q = 13 := (Nat.prime_dvd_prime_iff_eq hq (by norm_num)).mp h
      rw [hq3, show (4454476 : ℕ) / 13 = 342652 by norm_num]
      exact castPow_ne_one _ _ _ 23 1256240 (by norm_num) (by decide) (by decide)
    rcases (Nat.Prime.dvd_mul hq).mp h with h | h
    · have hq4 : q = 17 := (Nat.prime_dvd_prime_iff_eq hq (by norm_num)).mp h
      rw [hq4, show (4454476 : ℕ) / 17 = 262028 by norm_num]
      exact castPow_ne_one _ _ _ 23 3932833 (by norm_num) (by decide) (by decide)
    · have hq5 : q = 5039 := (Nat.prime_dvd_prime_iff_eq hq (by norm_num)).mp h
      rw [hq5, show (4454476 : ℕ) / 5039 = 884 by norm_num]
      exact castPow_ne_one _ _ _ 23 3980329 (by norm_num) (by decide) (by decide)

/-- Lucas certificate for `42113237` (`42113236 = 2²·11·957119`). -/
theorem prime_42113237 : Nat.Prime 42113237 := by
  have hsub : (42113237 : ℕ) - 1 = 42113236 := by norm_num
  apply lucas_primality _ ((2 : ℕ) : ZMod 42113237)
  · rw [hsub]
    exact castPow_eq_one _ _ _ 26 (by norm_num) (by decide)
  · intro q hq hdvd
    rw [hsub] at hdvd ⊢
    rw [show (42113236 : ℕ) = 2 ^ 2 * (11 * 957119) by norm_num] at hdvd
    rcases (Nat.Prime.dvd_mul hq).mp hdvd with h | h
    · have hq2 : q = 2 := (Nat.prime_dvd_prime_iff_eq hq (by norm_num)).mp
        (hq.dvd_of_dvd_pow h)
      rw [hq2, show (42113236 : ℕ) / 2 = 21056618 by norm_num]
      exact castPow_ne_one _ _ _ 26 42113236 (by norm_num) (by decide) (by decide)
    rcases (Nat.Prime.dvd_mul hq).mp h with h | h
    · have hq3 : q = 11 := (Nat.prime_dvd_prime_iff_eq hq (by norm_num)).mp h
      rw [hq3, show (42113236 : ℕ) / 11 = 3828476 by norm_num]
      exact castPow_ne_one _ _ _ 26 28116189 (by norm_num) (by decide) (by decide)
    · have hq4 : q = 957119 := (Nat.prime_dvd_prime_iff_eq hq prime_957119).mp h
      rw [hq4, show (42113236 : ℕ) / 957119 = 44 by norm_num]
      exact castPow_ne_one _ _ _ 26 12986221 (by norm_num) (by decide) (by decide)

/-- Lucas certificate for `fieldP = 2^128 - 159`, with witness `5` and
`fieldP - 1 = 2^5·3·10253·29333·4454477·42113237·62826870453001`. -/
theorem fieldP_prime : Nat.Prime fieldP := by
  have hsub : fieldP - 1 = 340282366920938463463374607431768211296 := by norm_num [fieldP]
  apply lucas_primality _ ((5 : ℕ) : ZMod fieldP)
  · rw [hsub]
    exact castPow_eq_one _ _ _ 129 (by norm_num) (by decide)
  · intro q hq hdvd
    rw [hsub] at hdvd ⊢
    rw [show (340282366920938463463374607431768211296 : ℕ) =
        2 ^ 5 * (3 * (10253 * (29333 * (4454477 * (42113237 * 62826870453001))))) by
      norm_num] at hdvd
    rcases (Nat.Prime.dvd_mul hq).mp hdvd with h | h
    · have hq2 : q = 2 := (Nat.prime_dvd_prime_iff_eq hq (by norm_num)).mp
        (hq.dvd_of_dvd_pow h)
      rw [hq2, show (340282366920938463463374607431768211296 : ℕ) / 2 =
        170141183460469231731687303715884105648 by norm_num]
      exact castPow_ne_one _ _ _ 129 340282366920938463463374607431768211296
        (by norm_num) (by decide) (by decide)
    rcases (Nat.Prime.dvd_mul hq).mp h with h | h
    · have hq3 : q = 3 := (Nat.prime_dvd_prime_iff_eq hq (by norm_num)).mp h
      rw [hq3, show (340282366920938463463374607431768211296 : ℕ) / 3 =
        113427455640312821154458202477256070432 by norm_num]
      exact castPow_ne_one _ _ _ 129 242472609493756488329140963943819063794
        (by norm_num) (by decide) (by decide)
    rcases (Nat.Prime.dvd_mul hq).mp h with h | h
    · have hqa : q = 10253 := (Nat.prime_dvd_prime_iff_eq hq (by norm_num)).mp h
      rw [hqa, show (340282366920938463463374607431768211296 : ℕ) / 10253 =
        33188565972977515211486843600094432 by norm_num]
      exact castPow_ne_one _ _ _ 129 184350510059456153881261533163665167928
        (by norm_num) (by decide) (by decide)
    rcases (Nat.Prime.dvd_mul hq).mp h with h | h
    · have hqb : q = 29333 := (Nat.prime_dvd_prime_iff_eq hq (by norm_num)).mp h
      rw [hqb, show (340282366920938463463374607431768211296 : ℕ) / 29333 =
        11600667061703148790214932241222112 by norm_num]
      exact castPow_ne_one _ _ _ 129 661637530012522759169398538300760012
        (by norm_num) (by decide) (by decide)
    rcases (Nat.Prime.dvd_mul hq).mp h with h | h
    · have hqc : q = 4454477 := (Nat.prime_dvd_prime_iff_eq hq prime_4454477).mp h
      rw [hqc, show (340282366920938463463374607431768211296 : ℕ) / 4454477 =
        76391093033130143777456838913248 by norm_num]
      exact castPow_ne_one _ _ _ 129 214068503086566363870694412336518674118
        (by norm_num) (by decide) (by decide)
    rcases (Nat.Prime.dvd_mul hq).mp h with h | h
    · have hqd : q = 42113237 := (Nat.prime_dvd_prime_iff_eq hq prime_42113237).mp h
      rw [hqd, show (340282366920938463463374607431768211296 : ℕ) / 42113237 =
        8080176000741488085168437834208 by norm_num]
      exact castPow_ne_one _ _ _ 129 19428763132010448911275334002843539504
        (by norm_num) (by decide) (by decide)
    · have hqe : q = 62826870453001 :=
        (Nat.prime_dvd_prime_iff_eq hq prime_62826870453001).mp h
      rw [hqe, show (340282366920938463463374607431768211296 : ℕ) / 62826870453001 =
        5416191582795677395123296 by norm_num]
      exact castPow_ne_one _ _ _ 129 130866266916296316075633054039233938897
        (by norm_num) (by decide) (by decide)

instance fieldP_prime_fact : Fact (Nat.Prime fieldP) := ⟨fieldP_prime⟩

/-- The field the program computes in (`FieldElement` in the source). -/
abbrev F : Type := ZMod fieldP

/-- Univariate polynomials over `F` (Mathlib's type, used only in proofs). -/
abbrev FX : Type := Polynomial F

/-- `FieldElement::new(v)`: canonical embedding of a `u64` into the field. -/
def FieldElement.new (v : ℕ) : F := (v : F)

/-- `invert` of the `ff` crate's `Field` trait: `CtOption` that is `None`
exactly on the additive identity. -/
def FieldElement.invert (x : F) : Option F := if x = 0 then none else some x⁻¹

/-- A point on the polynomial (`Share` in the source). -/
structure Share where
  x : F
  y : F
deriving DecidableEq

/-- The `Polynomial` struct of the source: a `degree` field and the coefficient
vector, leading coefficient first (Horner order). -/
structure Polynomial where
  degree : ℕ
  coefficients : List F
deriving DecidableEq

/-- `Polynomial::new(t, s)`: `coef = vec![s]`, then one `FieldElement::random()`
push per iteration of `for _ in 1..t-1` (that is `t - 2` pushes), then
`coef.reverse()`; `degree` is set to `t - 1`. For `t = 0` the `u64`
subtraction `t - 1` underflows and the call aborts (debug-build panic,
astronomically long loop in release); that is modelled as `none`. The thread
RNG behind `FieldElement::random` is an external collaborator (spec §1, §6),
so the successive draws enter as the explicit stream `rnd`. -/
def Polynomial.new (t : ℕ) (s : F) (rnd : ℕ → F) : Option Polynomial :=
  if t = 0 then none
  else some { degree := t - 1
              coefficients := (s :: (List.range (t - 2)).map rnd).reverse }

/-- The Horner loop of `Polynomial::evaluate`, folded over a coefficient list. -/
def evalLoop (cs : List F) (x acc : F) : F := cs.foldl (fun r c => r * x + c) acc

/-- `Polynomial::evaluate(x)`: `result = coefficients[0]`, then
`for i in 1..degree { result = result * x + coefficients[i] }`. The indexed
reads are the slice `coefficients[1..degree]`, here `(drop 1).take (degree-1)`
with `coefficients[0]` as `headD`; in every polynomial the program constructs
`degree = coefficients.len()`, so no out-of-bounds read occurs. -/
def Polynomial.evaluate (P : Polynomial) (x : F) : F :=
  evalLoop ((P.coefficients.drop 1).take (P.degree - 1)) x (P.coefficients.headD 0)

/-- `Polynomial::share(n)`: the shares `(i, f(i))` for `i = 1 ..= n`. -/
def Polynomial.share (P : Polynomial) (n : ℕ) : List Share :=
  (List.range n).map fun i =>
    { x := FieldElement.new (i + 1), y := P.evaluate (FieldElement.new (i + 1)) }

/-- `shares[j].x`, with a dummy default for the (never reached) out-of-bounds case. -/
def shareX (shares : List Share) (j : ℕ) : F := (shares.getD j ⟨0, 0⟩).x

/-- `shares[j].y`, with a dummy default for the (never reached) out-of-bounds case. -/
def shareY (shares : List Share) (j : ℕ) : F := (shares.getD j ⟨0, 0⟩).y

/-- The numerator `n` accumulated by the inner loop of `reconstruct` for outer
index `i`: `Π_{j < m, j ≠ i} (x_i - x_j)`, where `m = num_keys - 1`. -/
def nprod (shares : List Share) (m i : ℕ) : F :=
  ∏ j ∈ (Finset.range m).erase i, (shareX shares i - shareX shares j)

/-- The denominator contribution `d` accumulated by the inner loop of
`reconstruct` for outer index `i`: `Π_{j < m, j ≠ i} (-x_j)`. -/
def dprod (shares : List Share) (m i : ℕ) : F :=
  ∏ j ∈ (Finset.range m).erase i, (-shareX shares j)

/-- `Polynomial::reconstruct(shares)`. Both loops run over
`0 .. num_keys - 1`, one share fewer than supplied. On an empty slice the
`usize` subtraction `num_keys - 1` underflows into a panic; when some inner
product `n` is zero, `n.invert()` (see `FieldElement.invert`) is `None` and
`.unwrap()` panics; both panics are modelled as `none`. Otherwise
`n.invert().unwrap() = n⁻¹` and the returned accumulator is
`Σ_{i < m} y_i · d_i · n_i⁻¹`. -/
def Polynomial.reconstruct (shares : List Share) : Option F :=
  if shares.isEmpty then none
  else if ∃ i ∈ Finset.range (shares.length - 1), nprod shares (shares.length - 1) i = 0 then
    none
  else some (∑ i ∈ Finset.range (shares.length - 1),
    shareY shares i * dprod shares (shares.length - 1) i *
      (nprod shares (shares.length - 1) i)⁻¹)

/-- Modelled from the spec: reconstruction as §4.2 prescribes it — Lagrange
interpolation at `x = 0` over **all** supplied shares, `secret = Σ_i y_i ·
D_i · N_i⁻¹` with `N_i = Π_{j≠i}(x_i − x_j)`, `D_i = Π_{j≠i}(−x_j)`, every
product over all `j ≠ i` of the whole share list. The spec pins this down
(§9) against the source's `0..num_keys-1` loops; the error on a zero
denominator (§4.2) is the `none` branch. -/
def reconstructSpec (shares : List Share) : Option F :=
  if ∃ i ∈ Finset.range shares.length, nprod shares shares.length i = 0 then none
  else some (∑ i ∈ Finset.range shares.length,
    shareY shares i * dprod shares shares.length i * (nprod shares shares.length i)⁻¹)

/-- The `Questionnair` struct of the source. The 32-byte SHA-256 tags are
modelled as an abstract tag space `ℕ`. -/
structure Questionnair where
  questions : List String
  tags : List ℕ
  points : List F

/-- `Questionnair::new(s, questions, answers)`: `degree = questions.len()`,
`Polynomial::new(degree, s)` (which aborts when `degree = 0`), `degree`
shares, then per index `i < degree` a tag `tag_from_answer(answers[i])` and a
masked point `shares[i].y + hash(answers[i])`. The read `answers[i]` panics
when fewer answers than questions are supplied (modelled `none`); extra
answers are silently ignored. `tag_from_answer` (SHA-256 twice) and
`FieldElement::hash` (SHA-256 then rejection sampling) are external
collaborators (spec §1, §6) and enter as the parameters `tagF` and `keyF`. -/
def Questionnair.new (tagF : String → ℕ) (keyF : String → F) (s : F)
    (questions answers : List String) (rnd : ℕ → F) : Option Questionnair :=
  let degree := questions.length
  match Polynomial.new degree s rnd with
  | none => none
  | some poly =>
    if answers.length < degree then none
    else
      let shares := poly.share degree
      some { questions := questions
             tags := (List.range degree).map fun i => tagF (answers.getD i "")
             points := (List.range degree).map fun i =>
               shareY shares i + keyF (answers.getD i "") }

/-- The verification-and-unmasking loop of `answer`, processing the supplied
answers from position `i` upward: compare `tag_from_answer(ans)` with
`tags[i]` (out-of-bounds read: panic, modelled `none`; mismatch: early
`Err("Wrong answer")`), then push the share `(i+1, points[i] - hash(ans))`. -/
def collectShares (tagF : String → ℕ) (keyF : String → F)
    (tags : List ℕ) (points : List F) : ℕ → List String → Option (Except String (List Share))
  | _, [] => some (Except.ok [])
  | i, ans :: rest =>
    if h : i < tags.length then
      if tagF ans ≠ tags.get ⟨i, h⟩ then some (Except.error "Wrong answer")
      else if hp : i < points.length then
        match collectShares tagF keyF tags points (i + 1) rest with
        | none => none
        | some (Except.error e) => some (Except.error e)
        | some (Except.ok shares) =>
          some (Except.ok
            ({ x := FieldElement.new (i + 1), y := points.get ⟨i, hp⟩ - keyF ans } :: shares))
      else none
    else none

/-- `answer(questionnair, answers)`: run the tag-check/unmask loop over the
supplied answers, then `Polynomial::reconstruct` on the collected shares.
Panics inside either phase propagate as `none`. -/
def answer (tagF : String → ℕ) (keyF : String → F)
    (questionnair : Questionnair) (answers : List String) : Option (Except String F) :=
  match collectShares tagF keyF questionnair.tags questionnair.points 0 answers with
  | none => none
  | some (Except.error e) => some (Except.error e)
  | some (Except.ok shares) =>
    match Polynomial.reconstruct shares with
    | none => none
    | some v => some (Except.ok v)

/-! ### Helper lemmas: coefficient lists as `F[X]` polynomials -/

/-- The polynomial denoted by a Horner-order coefficient list (leading
coefficient first, constant term last). -/
noncomputable def listPoly : List F → FX
  | [] => 0
  | c :: cs => Polynomial.C c * Polynomial.X ^ cs.length + listPoly cs

theorem getD_map_range {α : Type*} (g : ℕ → α) (k j : ℕ) (hj : j < k) (d : α) :
    ((List.range k).map g).getD j d = g j := by
  simp [List.getD_eq_getElem?_getD, List.getElem?_map, List.getElem?_range hj]

theorem evalLoop_eq (x : F) : ∀ (cs : List F) (acc : F),
    evalLoop cs x acc = (Polynomial.C acc * Polynomial.X ^ cs.length + listPoly cs).eval x := by
  intro cs
  induction cs with
  | nil => intro acc; simp [evalLoop, listPoly]
  | cons c cs ih =>
    intro acc
    have hstep : evalLoop (c :: cs) x acc = evalLoop cs x (acc * x + c) := rfl
    rw [hstep, ih]
    simp only [listPoly, List.length_cons, Polynomial.eval_add, Polynomial.eval_mul,
      Polynomial.eval_pow, Polynomial.eval_C, Polynomial.eval_X]
    ring

theorem listPoly_degree_lt : ∀ cs : List F, (listPoly cs).degree < (cs.length : WithBot ℕ) := by
  intro cs
  induction cs with
  | nil => simp [listPoly]
  | cons c cs ih =>
    have hx : ((cs.length : ℕ) : WithBot ℕ) < ((cs.length + 1 : ℕ) : WithBot ℕ) := by
      exact_mod_cast Nat.lt_succ_self cs.length
    have h1 : (Polynomial.C c * Polynomial.X ^ cs.length : FX).degree <
        ((cs.length + 1 : ℕ) : WithBot ℕ) :=
      lt_of_le_of_lt (Polynomial.degree_C_mul_X_pow_le cs.length c) hx
    have h2 : (listPoly cs).degree < ((cs.length + 1 : ℕ) : WithBot ℕ) :=
      lt_of_lt_of_le ih (le_of_lt hx)
    calc (listPoly (c :: cs)).degree
        ≤ max (Polynomial.C c * Polynomial.X ^ cs.length : FX).degree (listPoly cs).degree :=
          Polynomial.degree_add_le _ _
      _ < ((cs.length + 1 : ℕ) : WithBot ℕ) := max_lt h1 h2
      _ = ((c :: cs).length : WithBot ℕ) := by simp

theorem listPoly_eval_zero_append (l : List F) (s : F) :
    (listPoly (l ++ [s])).eval 0 = s := by
  induction l with
  | nil => simp [listPoly]
  | cons c l ih =>
    simp only [List.cons_append, listPoly, Polynomial.eval_add, Polynomial.eval_mul,
      Polynomial.eval_pow, Polynomial.eval_C, Polynomial.eval_X]
    rw [zero_pow (by simp), mul_zero, zero_add]
    exact ih

/-- What `Polynomial::new` actually builds for `t ≥ 1`: `t - 2` random draws
followed by the secret as the constant (last) coefficient. -/
theorem Polynomial.new_unfold (t : ℕ) (s : F) (rnd : ℕ → F) (ht : 1 ≤ t) :
    Polynomial.new t s rnd = some
      { degree := t - 1
        coefficients := ((List.range (t - 2)).map rnd).reverse ++ [s] } := by
  simp [Polynomial.new, (show t ≠ 0 by omega)]

theorem Polynomial.evaluate_eq_listPoly (P : Polynomial)
    (hne : P.coefficients ≠ []) (hdeg : P.degree = P.coefficients.length) (x : F) :
    P.evaluate x = (listPoly P.coefficients).eval x := by
  match hcs : P.coefficients with
  | [] => exact absurd hcs hne
  | c :: cs =>
    have hdeg' : P.degree - 1 = cs.length := by
      rw [hdeg, hcs]; simp
    rw [Polynomial.evaluate, hcs, hdeg']
    simp only [List.drop_one, List.tail_cons, List.take_length, List.headD_cons]
    rw [evalLoop_eq x cs c, listPoly]

theorem fieldP_big : (2 : ℕ) ^ 64 < fieldP := by norm_num [fieldP]

/-- The node map used by `share`/`answer`: index `i` carries `x = i + 1`. -/
def nodeX (i : ℕ) : F := ((i + 1 : ℕ) : F)

theorem nodeX_injOn (m : ℕ) (hm : m ≤ 2 ^ 64) :
    Set.InjOn nodeX (Finset.range m) := by
  intro i hi j hj hij
  rw [Finset.coe_range, Set.mem_Iio] at hi hj
  have hip : i + 1 < fieldP := by
    have := fieldP_big; omega
  have hjp : j + 1 < fieldP := by
    have := fieldP_big; omega
  have : i + 1 = j + 1 :=
    Nat.ModEq.eq_of_lt_of_lt ((ZMod.natCast_eq_natCast_iff _ _ _).mp hij) hip hjp
  omega

/-- The Lagrange-interpolation core: on shares `(i+1, f(i+1))` for
`i = 0 .. k-1` with `f` of degree below `k - 1`, the loop of `reconstruct`
(which uses only the first `k - 1` shares) returns exactly `f(0)`. -/
theorem reconstruct_poly_eval (f : FX) (k : ℕ) (h2 : 2 ≤ k) (hb : k ≤ 2 ^ 64)
    (hdeg : f.degree < ((k - 1 : ℕ) : WithBot ℕ)) :
    Polynomial.reconstruct ((List.range k).map fun i =>
      { x := FieldElement.new (i + 1), y := f.eval (FieldElement.new (i + 1)) }) =
    some (f.eval 0) := by
  set L : List Share := (List.range k).map fun i =>
    { x := FieldElement.new (i + 1), y := f.eval (FieldElement.new (i + 1)) } with hL
  have hlen : L.length = k := by simp [hL]
  have hx : ∀ j, j < k → shareX L j = nodeX j := by
    intro j hj
    rw [shareX, hL, getD_map_range _ k j hj]
    rfl
  have hy : ∀ j, j < k → shareY L j = f.eval (nodeX j) := by
    intro j hj
    rw [shareY, hL, getD_map_range _ k j hj]
    rfl
  have hmk : k - 1 < k := by omega
  have hinj : Set.InjOn nodeX (Finset.range (k - 1)) := nodeX_injOn (k - 1) (by omega)
  have hnprod : ∀ i ∈ Finset.range (k - 1), nprod L (k - 1) i =
      ∏ j ∈ (Finset.range (k - 1)).erase i, (nodeX i - nodeX j) := by
    intro i hi
    have hik : i < k := lt_trans (Finset.mem_range.mp hi) hmk
    refine Finset.prod_congr rfl fun j hj => ?_
    have hjk : j < k := lt_trans (Finset.mem_range.mp (Finset.mem_of_mem_erase hj)) hmk
    rw [hx i hik, hx j hjk]
  have hdprod : ∀ i ∈ Finset.range (k - 1), dprod L (k - 1) i =
      ∏ j ∈ (Finset.range (k - 1)).erase i, (-nodeX j) := by
    intro i _
    refine Finset.prod_congr rfl fun j hj => ?_
    have hjk : j < k := lt_trans (Finset.mem_range.mp (Finset.mem_of_mem_erase hj)) hmk
    rw [hx j hjk]
  have hnz : ∀ i ∈ Finset.range (k - 1), nprod L (k - 1) i ≠ 0 := by
    intro i hi
    rw [hnprod i hi]
    rw [Finset.prod_ne_zero_iff]
    intro j hj
    refine sub_ne_zero.mpr fun hc => ?_
    have hji : j ≠ i := (Finset.mem_erase.mp hj).1
    exact hji (hinj (Finset.mem_coe.mpr hi)
      (Finset.mem_coe.mpr (Finset.mem_of_mem_erase hj)) hc).symm
  have hne : ¬ L.isEmpty := by
    rw [List.isEmpty_iff]
    intro hnil
    rw [hnil] at hlen
    simp at hlen
    omega
  rw [Polynomial.reconstruct, if_neg hne, hlen,
    if_neg (by
      intro hex
      obtain ⟨i, hi, hzero⟩ := hex
      exact hnz i hi hzero)]
  congr 1
  have hdeg' : f.degree < ((Finset.range (k - 1)).card : WithBot ℕ) := by
    rwa [Finset.card_range]
  have hbasis : ∀ i ∈ Finset.range (k - 1), (Lagrange.basis (Finset.range (k - 1)) nodeX i).eval 0
      = (∏ j ∈ (Finset.range (k - 1)).erase i, (-nodeX j)) *
        (∏ j ∈ (Finset.range (k - 1)).erase i, (nodeX i - nodeX j))⁻¹ := by
    intro i _
    rw [Lagrange.basis, Polynomial.eval_prod]
    rw [Finset.prod_congr rfl fun j _ => show (Lagrange.basisDivisor (nodeX i) (nodeX j)).eval 0
        = (-nodeX j) * (nodeX i - nodeX j)⁻¹ by
      rw [Lagrange.basisDivisor]
      simp only [Polynomial.eval_mul, Polynomial.eval_C, Polynomial.eval_sub,
        Polynomial.eval_X, zero_sub]
      ring]
    rw [Finset.prod_mul_distrib, Finset.prod_inv_distrib]
  have hkey : f.eval 0 = ∑ i ∈ Finset.range (k - 1),
      f.eval (nodeX i) * (Lagrange.basis (Finset.range (k - 1)) nodeX i).eval 0 := by
    conv_lhs => rw [Lagrange.eq_interpolate hinj hdeg']
    rw [Lagrange.interpolate_apply, Polynomial.eval_finset_sum]
    refine Finset.sum_congr rfl fun i _ => ?_
    rw [Polynomial.eval_mul, Polynomial.eval_C]
  rw [hkey]
  refine Finset.sum_congr rfl fun i hi => ?_
  have hik : i < k := lt_trans (Finset.mem_range.mp hi) hmk
  rw [hy i hik, hnprod i hi, hdprod i hi, hbasis i hi]
  ring

/-- When every processed answer passes its tag check, the loop collects
exactly the unmasked shares `(off + j + 1, points[off + j] - key)`. -/
theorem collectShares_ok (tagF : String → ℕ) (keyF : String → F)
    (tags : List ℕ) (points : List F) :
    ∀ (L : List String) (off : ℕ),
    off + L.length ≤ tags.length → off + L.length ≤ points.length →
    (∀ j, j < L.length → tagF (L.getD j "") = tags.getD (off + j) 0) →
    collectShares tagF keyF tags points off L = some (Except.ok
      ((List.range L.length).map fun j =>
        { x := FieldElement.new (off + j + 1)
          y := points.getD (off + j) 0 - keyF (L.getD j "") })) := by
  intro L
  induction L with
  | nil => intro off _ _ _; simp [collectShares]
  | cons a L ih =>
    intro off htl hpl htag
    have hofft : off < tags.length := by simp at htl; omega
    have hoffp : off < points.length := by simp at hpl; omega
    have htag0 : tagF a = tags.get ⟨off, hofft⟩ := by
      have := htag 0 (by simp)
      simpa [List.getD_eq_getElem?_getD, List.getElem?_eq_getElem hofft] using this
    have hrec := ih (off + 1) (by simp at htl ⊢; omega) (by simp at hpl ⊢; omega)
      (fun j hj => by
        have := htag (j + 1) (by simp; omega)
        simpa [Nat.add_assoc, Nat.add_comm 1 j] using this)
    rw [collectShares, dif_pos hofft, if_neg (by simpa using htag0), dif_pos hoffp, hrec]
    have hpt : points.get ⟨off, hoffp⟩ = points.getD (off + 0) 0 := by
      simp [List.getD_eq_getElem?_getD, List.getElem?_eq_getElem hoffp]
    rw [List.length_cons, List.range_succ_eq_map, List.map_cons, List.map_map]
    refine congrArg _ (congrArg _ (congrArg₂ _ ?_ ?_))
    · simp [List.getD_eq_getElem?_getD, List.getElem?_eq_getElem hoffp]
    · refine List.map_congr_left fun j hj => ?_
      simp only [Function.comp_apply, Nat.succ_eq_add_one, List.getD_cons_succ]
      have h1 : off + (j + 1) + 1 = off + 1 + j + 1 := by omega
      have h2 : off + (j + 1) = off + 1 + j := by omega
      rw [h1, h2]

/-- If all supplied answers pass their tag checks (and there are no more
answers than tags/points), `answer` is `reconstruct` of the unmasked shares. -/
theorem answer_eq_of_tags (tagF : String → ℕ) (keyF : String → F)
    (q : Questionnair) (A : List String)
    (ht : A.length ≤ q.tags.length) (hp : A.length ≤ q.points.length)
    (htag : ∀ j, j < A.length → tagF (A.getD j "") = q.tags.getD j 0) :
    answer tagF keyF q A = Option.map Except.ok (Polynomial.reconstruct
      ((List.range A.length).map fun j =>
        { x := FieldElement.new (j + 1), y := q.points.getD j 0 - keyF (A.getD j "") })) := by
  have hc := collectShares_ok tagF keyF q.tags q.points A 0 (by omega) (by omega)
    (fun j hj => by simpa using htag j hj)
  simp only [Nat.zero_add] at hc
  rw [answer, hc]
  rcases hrec : Polynomial.reconstruct ((List.range A.length).map fun j =>
    { x := FieldElement.new (j + 1), y := q.points.getD j 0 - keyF (A.getD j "") }) with _ | v <;>
    simp only [hrec] <;> rfl

/-- If the answers pass their tag checks up to position `j0` and fail at
`j0`, the loop stops with the wrong-answer error. -/
theorem collectShares_err (tagF : String → ℕ) (keyF : String → F)
    (tags : List ℕ) (points : List F) :
    ∀ (L : List String) (off j0 : ℕ), j0 < L.length →
    (∀ j, j < j0 → tagF (L.getD j "") = tags.getD (off + j) 0) →
    tagF (L.getD j0 "") ≠ tags.getD (off + j0) 0 →
    off + j0 < tags.length → off + j0 ≤ points.length →
    collectShares tagF keyF tags points off L = some (Except.error "Wrong answer") := by
  intro L
  induction L with
  | nil => intro off j0 h _ _ _ _; simp at h
  | cons a L ih =>
    intro off j0 hj0 hpass hmiss htl hpl
    have hofft : off < tags.length := by omega
    rcases Nat.eq_zero_or_pos j0 with h0 | hpos
    · subst h0
      have hma : tagF a ≠ tags.get ⟨off, hofft⟩ := by
        simpa [List.getD_eq_getElem?_getD, List.getElem?_eq_getElem hofft] using hmiss
      rw [collectShares, dif_pos hofft, if_pos hma]
    · obtain ⟨j1, rfl⟩ : ∃ j1, j0 = j1 + 1 := ⟨j0 - 1, by omega⟩
      have hoffp : off < points.length := by omega
      have hpass0 : tagF a = tags.get ⟨off, hofft⟩ := by
        have h := hpass 0 (by omega)
        simpa [List.getD_eq_getElem?_getD, List.getElem?_eq_getElem hofft] using h
      have hj1 : j1 < L.length := by
        simp at hj0
        omega
      have hrec := ih (off + 1) j1 hj1
        (fun j hj => by
          have h := hpass (j + 1) (by omega)
          simpa [show off + (j + 1) = off + 1 + j by omega] using h)
        (by simpa [show off + (j1 + 1) = off + 1 + j1 by omega] using hmiss)
        (by omega) (by omega)
      rw [collectShares, dif_pos hofft, if_neg (by simpa using hpass0), dif_pos hoffp, hrec]

/-- `reconstruct` never reads the last share: share lists of equal length
that agree below `length - 1` reconstruct identically. -/
theorem reconstruct_congr (l1 l2 : List Share) (hlen : l1.length = l2.length)
    (hpref : ∀ j, j < l1.length - 1 → l1.getD j ⟨0, 0⟩ = l2.getD j ⟨0, 0⟩) :
    Polynomial.reconstruct l1 = Polynomial.reconstruct l2 := by
  have hm2 : l2.length - 1 = l1.length - 1 := by omega
  have hX : ∀ j, j < l1.length - 1 → shareX l1 j = shareX l2 j := fun j hj => by
    rw [shareX, shareX, hpref j hj]
  have hY : ∀ j, j < l1.length - 1 → shareY l1 j = shareY l2 j := fun j hj => by
    rw [shareY, shareY, hpref j hj]
  have hnp : ∀ i ∈ Finset.range (l1.length - 1),
      nprod l1 (l1.length - 1) i = nprod l2 (l1.length - 1) i := by
    intro i hi
    refine Finset.prod_congr rfl fun j hj => ?_
    rw [hX i (Finset.mem_range.mp hi),
      hX j (Finset.mem_range.mp (Finset.mem_of_mem_erase hj))]
  have hdp : ∀ i ∈ Finset.range (l1.length - 1),
      dprod l1 (l1.length - 1) i = dprod l2 (l1.length - 1) i := by
    intro i hi
    refine Finset.prod_congr rfl fun j hj => ?_
    rw [hX j (Finset.mem_range.mp (Finset.mem_of_mem_erase hj))]
  by_cases hemp : l1.isEmpty
  · have hemp2 : l2.isEmpty := by
      rw [List.isEmpty_iff] at hemp ⊢
      rw [← List.length_eq_zero, ← hlen, List.length_eq_zero]
      exact hemp
    rw [Polynomial.reconstruct, Polynomial.reconstruct, if_pos hemp, if_pos hemp2]
  · have hemp2 : ¬ l2.isEmpty := by
      rw [List.isEmpty_iff] at hemp ⊢
      intro h
      exact hemp (by rw [← List.length_eq_zero, hlen, List.length_eq_zero]; exact h)
    rw [Polynomial.reconstruct, Polynomial.reconstruct, if_neg hemp, if_neg hemp2, hm2]
    have hiff : (∃ i ∈ Finset.range (l1.length - 1), nprod l1 (l1.length - 1) i = 0) ↔
        (∃ i ∈ Finset.range (l1.length - 1), nprod l2 (l1.length - 1) i = 0) := by
      constructor
      · rintro ⟨i, hi, hz⟩
        exact ⟨i, hi, by rw [← hnp i hi]; exact hz⟩
      · rintro ⟨i, hi, hz⟩
        exact ⟨i, hi, by rw [hnp i hi]; exact hz⟩
    by_cases hz : ∃ i ∈ Finset.range (l1.length - 1), nprod l1 (l1.length - 1) i = 0
    · rw [if_pos hz, if_pos (hiff.mp hz)]
    · rw [if_neg hz, if_neg (fun h => hz (hiff.mpr h))]
      congr 1
      refine Finset.sum_congr rfl fun i hi => ?_
      rw [hY i (Finset.mem_range.mp hi), hnp i hi, hdp i hi]

/-- Whenever the first `len - 1` shares have pairwise distinct `x`
coordinates, every inner denominator is nonzero and `reconstruct` returns a
value — no matter how many shares were supplied. -/
theorem reconstruct_isSome_of_distinct (shares : List Share) (hne : shares ≠ [])
    (hdist : ∀ i, i < shares.length - 1 → ∀ j, j < shares.length - 1 → i ≠ j →
      shareX shares i ≠ shareX shares j) :
    ∃ w, Polynomial.reconstruct shares = some w := by
  have hnz : ∀ i ∈ Finset.range (shares.length - 1),
      nprod shares (shares.length - 1) i ≠ 0 := by
    intro i hi
    rw [nprod, Finset.prod_ne_zero_iff]
    intro j hj
    refine sub_ne_zero.mpr ?_
    exact hdist i (Finset.mem_range.mp hi) j
      (Finset.mem_range.mp (Finset.mem_of_mem_erase hj))
      (Ne.symm (Finset.mem_erase.mp hj).1)
  have hemp : ¬ shares.isEmpty := by
    rw [List.isEmpty_iff]
    exact hne
  rw [Polynomial.reconstruct, if_neg hemp,
    if_neg (by rintro ⟨i, hi, hz⟩; exact hnz i hi hz)]
  exact ⟨_, rfl⟩

/-- What `Questionnair::new` builds when the polynomial construction
succeeds and enough answers are supplied. -/
theorem Questionnair.new_build (tagF : String → ℕ) (keyF : String → F) (s : F)
    (Q A : List String) (rnd : ℕ → F) (P : Polynomial)
    (hP : Polynomial.new Q.length s rnd = some P) (hQA : Q.length ≤ A.length) :
    Questionnair.new tagF keyF s Q A rnd = some
      { questions := Q
        tags := (List.range Q.length).map fun i => tagF (A.getD i "")
        points := (List.range Q.length).map fun i =>
          shareY (P.share Q.length) i + keyF (A.getD i "") } := by
  simp only [Questionnair.new, hP]
  rw [if_neg (by omega)]

/-! ### Claim theorems -/

/-- C1: Vault round-trip — for every secret `s`, question list `Q` and answer
list `A` with `|Q| = |A| = k ≥ 2` (and `k` a representable vector length,
`k ≤ 2^64`), `Questionnair::new(s, Q, A)` succeeds, and `answer`ing the
resulting vault with the same list `A` succeeds and returns exactly `s`,
for every choice of the random coefficient draws and of the (deterministic)
tag and hash-to-field functions. -/
theorem vault_round_trip (tagF : String → ℕ) (keyF : String → F) (rnd : ℕ → F)
    (s : F) (Q A : List String) (h2 : 2 ≤ Q.length) (hQA : Q.length = A.length)
    (hb : Q.length ≤ 2 ^ 64) :
    ∃ v, Questionnair.new tagF keyF s Q A rnd = some v ∧
      answer tagF keyF v A = some (Except.ok s) := by
  have hk1 : 1 ≤ Q.length := by omega
  obtain ⟨P, hP, hPco, hPdeg⟩ : ∃ P, Polynomial.new Q.length s rnd = some P ∧
      P.coefficients = ((List.range (Q.length - 2)).map rnd).reverse ++ [s] ∧
      P.degree = Q.length - 1 :=
    ⟨_, Polynomial.new_unfold Q.length s rnd hk1, rfl, rfl⟩
  have hv := Questionnair.new_build tagF keyF s Q A rnd P hP (by omega)
  set vlt : Questionnair :=
    { questions := Q
      tags := (List.range Q.length).map fun i => tagF (A.getD i "")
      points := (List.range Q.length).map fun i =>
        shareY (P.share Q.length) i + keyF (A.getD i "") } with hvlt
  refine ⟨vlt, hv, ?_⟩
  have hclen : P.coefficients.length = Q.length - 1 := by
    rw [hPco]
    simp
    omega
  have hcne : P.coefficients ≠ [] := by
    rw [hPco]
    simp
  have hdeg : P.degree = P.coefficients.length := by rw [hclen, hPdeg]
  have hfdeg : (listPoly P.coefficients).degree < ((Q.length - 1 : ℕ) : WithBot ℕ) := by
    have h := listPoly_degree_lt P.coefficients
    rwa [hclen] at h
  have heval0 : (listPoly P.coefficients).eval 0 = s := by
    rw [hPco]
    exact listPoly_eval_zero_append _ s
  have htags : vlt.tags = (List.range Q.length).map fun i => tagF (A.getD i "") := rfl
  have hpoints : vlt.points = (List.range Q.length).map fun i =>
      shareY (P.share Q.length) i + keyF (A.getD i "") := rfl
  have hshY : ∀ j, j < Q.length →
      shareY (P.share Q.length) j = P.evaluate (FieldElement.new (j + 1)) := by
    intro j hj
    rw [shareY, Polynomial.share, getD_map_range _ _ j hj]
  rw [answer_eq_of_tags tagF keyF vlt A
    (by rw [htags]; simp; omega)
    (by rw [hpoints]; simp; omega)
    (fun j hj => by rw [htags, getD_map_range _ Q.length j (by omega)])]
  have hlist : (List.range A.length).map (fun j =>
      ({ x := FieldElement.new (j + 1),
         y := vlt.points.getD j 0 - keyF (A.getD j "") } : Share)) =
      (List.range Q.length).map fun j =>
      ({ x := FieldElement.new (j + 1),
         y := (listPoly P.coefficients).eval (FieldElement.new (j + 1)) } : Share) := by
    rw [← hQA]
    refine List.map_congr_left fun j hj => ?_
    have hjk : j < Q.length := List.mem_range.mp hj
    rw [hpoints, getD_map_range _ Q.length j hjk, hshY j hjk,
      Polynomial.evaluate_eq_listPoly P hcne hdeg, add_sub_cancel_right]
  rw [hlist, reconstruct_poly_eval (listPoly P.coefficients) Q.length h2 hb hfdeg, heval0]
  rfl

/-- Witness for C1 at `k = 2`, secret `42`. -/
theorem vault_round_trip_witness :
    ∃ v, Questionnair.new (fun _ => 0) (fun _ => 0) (42 : F)
        ["q1", "q2"] ["a1", "a2"] (fun _ => 0) = some v ∧
      answer (fun _ => 0) (fun _ => 0) v ["a1", "a2"] = some (Except.ok 42) :=
  vault_round_trip (fun _ => 0) (fun _ => 0) (fun _ => 0) 42 ["q1", "q2"] ["a1", "a2"]
    (by norm_num) (by norm_num) (by norm_num)

/-- Evaluation helper: on any two shares, the loop of `reconstruct` uses only
the first one (`m = 1`), with empty inner products, giving `y₀ · 1 · 1⁻¹`. -/
theorem reconstruct_pair (s1 s2 : Share) :
    Polynomial.reconstruct [s1, s2] = some s1.y := by
  have hlen : ([s1, s2] : List Share).length - 1 = 1 := rfl
  have hn : nprod [s1, s2] 1 0 = 1 := by
    rw [nprod, show (Finset.range 1).erase 0 = ∅ from by decide, Finset.prod_empty]
  have hd : dprod [s1, s2] 1 0 = 1 := by
    rw [dprod, show (Finset.range 1).erase 0 = ∅ from by decide, Finset.prod_empty]
  rw [Polynomial.reconstruct, if_neg (by simp), hlen,
    if_neg (by
      rintro ⟨i, hi, hz⟩
      have hi0 : i = 0 := by
        have := Finset.mem_range.mp hi
        omega
      subst hi0
      rw [hn] at hz
      exact one_ne_zero hz)]
  rw [Finset.sum_range_one, hn, hd, inv_one, mul_one, mul_one]
  rfl

/-- Evaluation helper: the spec-prescribed reconstruction on two shares with
distinct `x` coordinates is the full two-point Lagrange value at `0`. -/
theorem reconstructSpec_pair (s1 s2 : Share) (h12 : s1.x ≠ s2.x) :
    reconstructSpec [s1, s2] = some
      (s1.y * (-s2.x) * (s1.x - s2.x)⁻¹ + s2.y * (-s1.x) * (s2.x - s1.x)⁻¹) := by
  have hlen : ([s1, s2] : List Share).length = 2 := rfl
  have hn0 : nprod [s1, s2] 2 0 = s1.x - s2.x := by
    rw [nprod, show (Finset.range 2).erase 0 = {1} from by decide, Finset.prod_singleton]
    rfl
  have hn1 : nprod [s1, s2] 2 1 = s2.x - s1.x := by
    rw [nprod, show (Finset.range 2).erase 1 = {0} from by decide, Finset.prod_singleton]
    rfl
  have hd0 : dprod [s1, s2] 2 0 = -s2.x := by
    rw [dprod, show (Finset.range 2).erase 0 = {1} from by decide, Finset.prod_singleton]
    rfl
  have hd1 : dprod [s1, s2] 2 1 = -s1.x := by
    rw [dprod, show (Finset.range 2).erase 1 = {0} from by decide, Finset.prod_singleton]
    rfl
  rw [reconstructSpec, hlen,
    if_neg (by
      rintro ⟨i, hi, hz⟩
      have hi2 : i < 2 := Finset.mem_range.mp hi
      interval_cases i
      · rw [hn0] at hz
        exact h12 (sub_eq_zero.mp hz)
      · rw [hn1] at hz
        exact h12 (sub_eq_zero.mp hz).symm)]
  rw [Finset.sum_range_succ, Finset.sum_range_one, hn0, hn1, hd0, hd1]
  rfl

/-- C2: refuted on the code — at the two shares `(1, 0), (2, 1)` (both `x`
coordinates distinct and nonzero) the `reconstruct` of the source returns
`0`, using only the first share, while Lagrange interpolation at `x = 0`
over **all** supplied shares — which the claim asserts — yields
`2·0 − 1 = −1`.  The spec itself (§9) flags the `0..num_keys-1` loops as an
off-by-one defect of the implementation. -/
theorem reconstruct_off_by_one :
    Polynomial.reconstruct [⟨1, 0⟩, ⟨2, 1⟩] = some 0 ∧
    reconstructSpec [⟨1, 0⟩, ⟨2, 1⟩] = some (-1) ∧ (0 : F) ≠ -1 := by
  refine ⟨?_, ?_, ?_⟩
  · rw [reconstruct_pair]
  · rw [reconstructSpec_pair ⟨1, 0⟩ ⟨2, 1⟩ (by decide)]
    congr 1
    show (0 : F) * -(2 : F) * ((1 : F) - 2)⁻¹ + (1 : F) * -(1 : F) * ((2 : F) - 1)⁻¹ = -1
    rw [show ((2 : F) - 1) = 1 by norm_num, inv_one]
    ring
  · decide

/-- C4 counterexample: `Polynomial::new(3, 42)` builds `2` coefficients, not
the `3` the claim asserts. -/
theorem new_coefficient_count_counterexample :
    (Polynomial.new 3 (42 : F) fun _ => (7 : F)).map (fun P => P.coefficients.length) =
      some 2 ∧ (2 : ℕ) ≠ 3 := by
  constructor
  · rfl
  · decide

/-- C4 amended: for `t ≥ 2`, `Polynomial::new(t, s)` builds exactly `t - 1`
coefficients — `t - 2` random draws (reversed) followed by the secret as the
constant term — sets `degree = t - 1`, and evaluating at `0` yields `s`. -/
theorem new_builds_t_minus_one_coefficients (t : ℕ) (s : F) (rnd : ℕ → F) (ht : 2 ≤ t) :
    ∃ P, Polynomial.new t s rnd = some P ∧
      P.coefficients.length = t - 1 ∧
      P.coefficients = ((List.range (t - 2)).map rnd).reverse ++ [s] ∧
      P.degree = t - 1 ∧ P.evaluate 0 = s := by
  refine ⟨_, Polynomial.new_unfold t s rnd (by omega), ?_, rfl, rfl, ?_⟩
  · simp
    omega
  · rw [Polynomial.evaluate_eq_listPoly _ (by simp) (by simp; omega)]
    exact listPoly_eval_zero_append _ s

/-- Witness for the amended C4 at `t = 3`, `s = 42`. -/
theorem new_builds_t_minus_one_coefficients_witness :
    ∃ P, Polynomial.new 3 (42 : F) (fun _ => (7 : F)) = some P ∧
      P.coefficients.length = 3 - 1 ∧
      P.coefficients = ((List.range (3 - 2)).map fun _ => (7 : F)).reverse ++ [42] ∧
      P.degree = 3 - 1 ∧ P.evaluate 0 = 42 :=
  new_builds_t_minus_one_coefficients 3 42 (fun _ => 7) (by norm_num)

/-- C5 counterexample: `Polynomial::new(1, 42)` succeeds (returning the
constant polynomial) instead of signalling an error. -/
theorem new_accepts_degenerate_threshold :
    (Polynomial.new 1 (42 : F) fun _ => (7 : F)) =
      some { degree := 0, coefficients := [42] } := rfl

/-- C5 amended: `Polynomial::new` never signals an error for `t = 1` — it
returns the constant polynomial `[s]` — and for `t = 0` it produces no
polynomial at all (the `u64` subtraction `t - 1` underflows and the call
aborts), rather than returning a degenerate-threshold error value. -/
theorem new_degenerate_behaviour (s : F) (rnd : ℕ → F) :
    Polynomial.new 1 s rnd = some { degree := 0, coefficients := [s] } ∧
    Polynomial.new 0 s rnd = none := by
  constructor
  · simp [Polynomial.new]
  · simp [Polynomial.new]

/-- C8 counterexample: `reconstruct` given only `2` shares (fewer than the
`3` a vault of three questions requires) returns the field element `5`
instead of failing with a length-mismatch error. -/
theorem reconstruct_returns_value_on_partial_shares :
    Polynomial.reconstruct [⟨1, 5⟩, ⟨2, 7⟩] = some 5 := by
  rw [reconstruct_pair]

/-- C8 amended: `reconstruct` performs no share-count check at all — it does
not know the polynomial's coefficient count.  For every nonempty share list
whose first `len - 1` shares have pairwise distinct `x` coordinates it
returns a field element, in particular when fewer shares than the
coefficient count are supplied. -/
theorem reconstruct_no_count_check (shares : List Share) (hne : shares ≠ [])
    (hdist : ∀ i, i < shares.length - 1 → ∀ j, j < shares.length - 1 → i ≠ j →
      shareX shares i ≠ shareX shares j) :
    ∃ w, Polynomial.reconstruct shares = some w :=
  reconstruct_isSome_of_distinct shares hne hdist

/-- Witness for the amended C8 on three shares. -/
theorem reconstruct_no_count_check_witness :
    ∃ w, Polynomial.reconstruct [⟨1, 1⟩, ⟨2, 2⟩, ⟨3, 3⟩] = some w :=
  reconstruct_no_count_check [⟨1, 1⟩, ⟨2, 2⟩, ⟨3, 3⟩] (by decide) (by decide)

/-- C9 counterexample: the share list `(1,0), (2,0), (2,1)` contains two
shares with equal `x` coordinate (positions `1` and `2`), yet `reconstruct`
does not signal any error: the duplicate only involves the last share, which
the loops skip, and the call returns the value `0`. -/
theorem reconstruct_ignores_duplicate_in_last_share :
    Polynomial.reconstruct [⟨1, 0⟩, ⟨2, 0⟩, ⟨2, 1⟩] = some 0 := by
  have hlen : ([⟨1, 0⟩, ⟨2, 0⟩, ⟨2, 1⟩] : List Share).length - 1 = 2 := rfl
  have hn0 : nprod [⟨1, 0⟩, ⟨2, 0⟩, ⟨2, 1⟩] 2 0 = (1 : F) - 2 := by
    rw [nprod, show (Finset.range 2).erase 0 = {1} from by decide, Finset.prod_singleton]
    rfl
  have hn1 : nprod [⟨1, 0⟩, ⟨2, 0⟩, ⟨2, 1⟩] 2 1 = (2 : F) - 1 := by
    rw [nprod, show (Finset.range 2).erase 1 = {0} from by decide, Finset.prod_singleton]
    rfl
  rw [Polynomial.reconstruct, if_neg (by simp), hlen,
    if_neg (by
      rintro ⟨i, hi, hz⟩
      have hi2 : i < 2 := Finset.mem_range.mp hi
      interval_cases i
      · rw [hn0] at hz
        rw [sub_eq_zero] at hz
        exact (by decide : (1 : F) ≠ 2) hz
      · rw [hn1] at hz
        rw [sub_eq_zero] at hz
        exact (by decide : (2 : F) ≠ 1) hz)]
  rw [Finset.sum_range_succ, Finset.sum_range_one]
  show some ((0 : F) * dprod _ 2 0 * (nprod _ 2 0)⁻¹ +
    (0 : F) * dprod _ 2 1 * (nprod _ 2 1)⁻¹) = some 0
  rw [zero_mul, zero_mul, zero_mul, zero_mul, add_zero]

/-- C9 amended: a duplicated `x` among the **first `len - 1`** shares makes
an inner numerator product zero, `n.invert()` is `None` and the `.unwrap()`
panics (modelled `none`) — the call never silently divides by zero and never
returns a value; but a duplicate involving only the last share is skipped
(see the counterexample), so the panic is confined to the first `len - 1`
positions, and no error value is ever signalled. -/
theorem reconstruct_duplicate_in_first_panics (shares : List Share) (a b : ℕ)
    (hab : a ≠ b) (ha : a < shares.length - 1) (hb : b < shares.length - 1)
    (hx : shareX shares a = shareX shares b) :
    Polynomial.reconstruct shares = none := by
  have hemp : ¬ shares.isEmpty := by
    rw [List.isEmpty_iff]
    intro h
    rw [h] at ha
    simp at ha
  rw [Polynomial.reconstruct, if_neg hemp, if_pos]
  refine ⟨a, Finset.mem_range.mpr ha, ?_⟩
  rw [nprod]
  refine Finset.prod_eq_zero (i := b)
    (Finset.mem_erase.mpr ⟨Ne.symm hab, Finset.mem_range.mpr hb⟩) ?_
  rw [hx, sub_self]

/-- Witness for the amended C9: duplicate `x` at positions `0` and `1`. -/
theorem reconstruct_duplicate_in_first_panics_witness :
    Polynomial.reconstruct [⟨1, 0⟩, ⟨1, 1⟩, ⟨2, 2⟩] = none :=
  reconstruct_duplicate_in_first_panics [⟨1, 0⟩, ⟨1, 1⟩, ⟨2, 2⟩] 0 1
    (by decide) (by decide) (by decide) (by decide)

/-- C3: Wrong-answer rejection — for any vault enrolled over `Q`, `A`
(`|Q| = |A|`) and any supplied list differing from `A` at some position
(with, as the spec's §4.4 collision-resistance proviso requires, no tag
collision between a differing supplied/enrolled answer pair), `answer`
returns the `Wrong answer` error: never a field element, neither the
enrolled secret nor any other. -/
theorem wrong_answer_rejection (tagF : String → ℕ) (keyF : String → F) (rnd : ℕ → F)
    (s : F) (Q A Asup : List String) (v : Questionnair)
    (hv : Questionnair.new tagF keyF s Q A rnd = some v)
    (hQA : Q.length = A.length) (hlen : Asup.length = A.length)
    (i : ℕ) (hi : i < A.length) (hnei : Asup.getD i "" ≠ A.getD i "")
    (hcoll : ∀ j, j < A.length → Asup.getD j "" ≠ A.getD j "" →
      tagF (Asup.getD j "") ≠ tagF (A.getD j "")) :
    answer tagF keyF v Asup = some (Except.error "Wrong answer") := by
  have hk1 : 1 ≤ Q.length := by omega
  obtain ⟨P, hP⟩ : ∃ P, Polynomial.new Q.length s rnd = some P :=
    ⟨_, Polynomial.new_unfold Q.length s rnd hk1⟩
  have hv2 := Questionnair.new_build tagF keyF s Q A rnd P hP (le_of_eq hQA)
  have hveq : v =
      { questions := Q,
        tags := (List.range Q.length).map fun i => tagF (A.getD i ""),
        points := (List.range Q.length).map fun i =>
          shareY (P.share Q.length) i + keyF (A.getD i "") } :=
    Option.some_injective _ (hv.symm.trans hv2)
  have htagsv : v.tags = (List.range Q.length).map fun i => tagF (A.getD i "") := by
    rw [hveq]
  have hpointsv : v.points = (List.range Q.length).map fun i =>
      shareY (P.share Q.length) i + keyF (A.getD i "") := by
    rw [hveq]
  have hex : ∃ j, j < A.length ∧ Asup.getD j "" ≠ A.getD j "" := ⟨i, hi, hnei⟩
  have hspec := Nat.find_spec hex
  have hj0A : Nat.find hex < A.length := hspec.1
  have hcerr := collectShares_err tagF keyF
    ((List.range Q.length).map fun i => tagF (A.getD i ""))
    ((List.range Q.length).map fun i => shareY (P.share Q.length) i + keyF (A.getD i ""))
    Asup 0 (Nat.find hex)
    (by omega)
    (fun j hj => by
      have hjA : j < A.length := by omega
      have heq : Asup.getD j "" = A.getD j "" := by
        by_contra hne2
        exact Nat.find_min hex hj ⟨hjA, hne2⟩
      rw [Nat.zero_add, getD_map_range _ Q.length j (by omega), heq])
    (by
      rw [Nat.zero_add, getD_map_range _ Q.length (Nat.find hex) (by omega)]
      exact hcoll (Nat.find hex) hj0A hspec.2)
    (by rw [Nat.zero_add, List.length_map, List.length_range]; omega)
    (by rw [Nat.zero_add, List.length_map, List.length_range]; omega)
  rw [answer, htagsv, hpointsv, hcerr]

/-- Witness for C3: vault over answers `["aa", "bb"]`, supplied answers
`["aa", "c"]`, tag function `String.length`. -/
theorem wrong_answer_rejection_witness :
    answer String.length (fun _ => 0)
      { questions := ["q1", "q2"], tags := [2, 2], points := [7, 7] } ["aa", "c"] =
      some (Except.error "Wrong answer") :=
  wrong_answer_rejection String.length (fun _ => 0) (fun _ => 0) 7
    ["q1", "q2"] ["aa", "bb"] ["aa", "c"]
    { questions := ["q1", "q2"], tags := [2, 2], points := [7, 7] }
    (by rfl) (by decide) (by decide) 1 (by decide) (by decide) (by decide)

/-- C6 counterexample: a vault over a single question (`|Q| = |A| = 1 < 2`)
is constructed without any error. -/
theorem questionnair_new_accepts_single_question :
    (Questionnair.new (fun _ => 0) (fun _ => 0) (42 : F) ["q"] ["a"] fun _ => 0).isSome =
      true := rfl

/-- C6 amended: `Questionnair::new` validates nothing — it returns a vault
exactly when `|Q| ≥ 1` and `|A| ≥ |Q|` (extra answers silently ignored);
`|Q| = 0` aborts inside `Polynomial::new` and `|A| < |Q|` panics on the
`answers[i]` read (both modelled `none`).  No `|Q| = |A|` or `|Q| ≥ 2`
check exists. -/
theorem questionnair_new_isSome_iff (tagF : String → ℕ) (keyF : String → F)
    (s : F) (Q A : List String) (rnd : ℕ → F) :
    (Questionnair.new tagF keyF s Q A rnd).isSome = true ↔
      1 ≤ Q.length ∧ Q.length ≤ A.length := by
  by_cases h0 : Q.length = 0
  · have hnone : Polynomial.new 0 s rnd = none := by
      simp [Polynomial.new]
    simp [Questionnair.new, h0, hnone]
  · obtain hP := Polynomial.new_unfold Q.length s rnd (by omega)
    simp only [Questionnair.new, hP]
    by_cases hlen : A.length < Q.length
    · rw [if_pos hlen]
      simp
      omega
    · rw [if_neg hlen]
      simp
      omega

/-- C7 counterexample: a vault over three questions accepts an answer list
of length two — the two supplied (correct) answers pass, only their shares
are collected, and `answer` returns a field element (here even the enrolled
secret, because the random draws were all zero) instead of failing. -/
theorem answer_accepts_short_answer_list :
    Option.bind (Questionnair.new (fun _ => 0) (fun _ => 0) (42 : F)
        ["q1", "q2", "q3"] ["a1", "a2", "a3"] fun _ => 0)
      (fun v => answer (fun _ => 0) (fun _ => 0) v ["a1", "a2"]) =
      some (Except.ok 42) := by
  have hv : Questionnair.new (fun _ => (0 : ℕ)) (fun _ => (0 : F)) (42 : F)
      ["q1", "q2", "q3"] ["a1", "a2", "a3"] (fun _ => 0) = some
      { questions := ["q1", "q2", "q3"], tags := [0, 0, 0], points := [42, 42, 42] } := by
    rfl
  rw [hv]
  show answer (fun _ => 0) (fun _ => 0)
    { questions := ["q1", "q2", "q3"], tags := [0, 0, 0], points := [42, 42, 42] }
    ["a1", "a2"] = some (Except.ok 42)
  rw [answer_eq_of_tags (fun _ => 0) (fun _ => 0) _ ["a1", "a2"]
    (by decide) (by decide)
    (fun j hj => by
      simp only [List.length_cons, List.length_nil] at hj
      interval_cases j <;> rfl)]
  show Option.map Except.ok (Polynomial.reconstruct [⟨1, (42 : F)⟩, ⟨2, 42⟩]) =
    some (Except.ok 42)
  rw [reconstruct_pair]
  rfl

/-- C7 amended: `answer` never compares the supplied count with the vault's
question count.  Any proper nonempty prefix of the correct answers passes
all its tag checks and yields a field element (`Ok`), reconstructed from the
prefix shares alone — no error is returned. -/
theorem answer_accepts_truncated_answers (tagF : String → ℕ) (keyF : String → F) (rnd : ℕ → F)
    (s : F) (Q A : List String) (m : ℕ) (v : Questionnair)
    (hv : Questionnair.new tagF keyF s Q A rnd = some v)
    (hQA : Q.length = A.length) (h1 : 1 ≤ m) (hm : m < Q.length) (hb : Q.length ≤ 2 ^ 64) :
    ∃ w, answer tagF keyF v (A.take m) = some (Except.ok w) := by
  have hk1 : 1 ≤ Q.length := by omega
  obtain ⟨P, hP⟩ : ∃ P, Polynomial.new Q.length s rnd = some P :=
    ⟨_, Polynomial.new_unfold Q.length s rnd hk1⟩
  have hv2 := Questionnair.new_build tagF keyF s Q A rnd P hP (le_of_eq hQA)
  have hveq : v =
      { questions := Q,
        tags := (List.range Q.length).map fun i => tagF (A.getD i ""),
        points := (List.range Q.length).map fun i =>
          shareY (P.share Q.length) i + keyF (A.getD i "") } :=
    Option.some_injective _ (hv.symm.trans hv2)
  have htagsv : v.tags = (List.range Q.length).map fun i => tagF (A.getD i "") := by
    rw [hveq]
  have hpointsv : v.points = (List.range Q.length).map fun i =>
      shareY (P.share Q.length) i + keyF (A.getD i "") := by
    rw [hveq]
  have htk : (A.take m).length = m := by
    rw [List.length_take]
    omega
  have hgetTake : ∀ j, j < m → (A.take m).getD j "" = A.getD j "" := by
    intro j hj
    rw [List.getD_eq_getElem?_getD, List.getD_eq_getElem?_getD,
      List.getElem?_take_of_lt hj]
  rw [answer_eq_of_tags tagF keyF v (A.take m)
    (by rw [htagsv, htk]; simp; omega)
    (by rw [hpointsv, htk]; simp; omega)
    (fun j hj => by
      rw [htk] at hj
      rw [htagsv, getD_map_range _ Q.length j (by omega), hgetTake j hj])]
  rw [htk]
  set L : List Share := (List.range m).map fun j =>
    { x := FieldElement.new (j + 1), y := v.points.getD j 0 - keyF ((A.take m).getD j "") }
    with hL
  have hlenL : L.length = m := by simp [hL]
  have hxL : ∀ j, j < m → shareX L j = nodeX j := by
    intro j hj
    rw [shareX, hL, getD_map_range _ m j hj]
    rfl
  obtain ⟨w, hw⟩ := reconstruct_isSome_of_distinct L
    (by
      intro hnil
      rw [hnil] at hlenL
      simp at hlenL
      omega)
    (by
      intro a ha b hb hab
      rw [hlenL] at ha hb
      rw [hxL a (by omega), hxL b (by omega)]
      intro hcon
      exact hab (nodeX_injOn m (by omega)
        (by rw [Finset.coe_range]; exact Set.mem_Iio.mpr (by omega))
        (by rw [Finset.coe_range]; exact Set.mem_Iio.mpr (by omega)) hcon))
  rw [hw]
  exact ⟨w, rfl⟩

/-- C10: the last masked point never affects recovery.  Two vaults with the
same tags whose point lists agree except possibly at the last index yield
identical `answer` results on any full answer list passing all tag checks:
the loops of `reconstruct` read only the first `k - 1` unmasked shares. -/
theorem answer_ignores_last_point (tagF : String → ℕ) (keyF : String → F)
    (q1 q2 : Questionnair) (A : List String)
    (_hquest : q1.questions = q2.questions) (htags : q1.tags = q2.tags)
    (ht : A.length = q1.tags.length) (hp1 : q1.points.length = A.length)
    (hp2 : q2.points.length = A.length)
    (hpref : ∀ j, j < A.length - 1 → q1.points.getD j 0 = q2.points.getD j 0)
    (hpass : ∀ j, j < A.length → tagF (A.getD j "") = q1.tags.getD j 0) :
    answer tagF keyF q1 A = answer tagF keyF q2 A := by
  rw [answer_eq_of_tags tagF keyF q1 A (by omega) (by omega) hpass,
    answer_eq_of_tags tagF keyF q2 A (by rw [← htags]; omega) (by omega)
      (fun j hj => by rw [← htags]; exact hpass j hj)]
  congr 1
  apply reconstruct_congr
  · rw [List.length_map, List.length_map]
  · intro j hj
    simp only [List.length_map, List.length_range] at hj
    rw [List.getD_eq_getElem?_getD, List.getD_eq_getElem?_getD,
      List.getElem?_map, List.getElem?_map, List.getElem?_range (by omega : j < A.length)]
    simp only [Option.map_some', Option.getD_some]
    rw [hpref j (by omega)]

/-- Witness for C10: two vaults differing only in the last masked point. -/
theorem answer_ignores_last_point_witness :
    answer (fun _ => 0) (fun _ => 0)
      { questions := ["q1", "q2"], tags := [0, 0], points := [3, 4] } ["x", "y"] =
    answer (fun _ => 0) (fun _ => 0)
      { questions := ["q1", "q2"], tags := [0, 0], points := [3, 9] } ["x", "y"] :=
  answer_ignores_last_point (fun _ => 0) (fun _ => 0)
    { questions := ["q1", "q2"], tags := [0, 0], points := [3, 4] }
    { questions := ["q1", "q2"], tags := [0, 0], points := [3, 9] }
    ["x", "y"] (by rfl) (by rfl) (by decide) (by decide) (by decide)
    (by decide) (by decide)

/-- Witness for the amended C7 at `m = 2` of a three-question vault. -/
theorem answer_accepts_truncated_answers_witness :
    ∃ w, answer (fun _ => 0) (fun _ => 0)
      { questions := ["q1", "q2", "q3"], tags := [0, 0, 0], points := [42, 42, 42] }
      (["a1", "a2", "a3"].take 2) = some (Except.ok w) :=
  answer_accepts_truncated_answers (fun _ => 0) (fun _ => 0) (fun _ => 0) 42
    ["q1", "q2", "q3"] ["a1", "a2", "a3"] 2
    { questions := ["q1", "q2", "q3"], tags := [0, 0, 0], points := [42, 42, 42] }
    (by rfl) (by decide) (by decide) (by decide) (by norm_num)

end SecretVault
